import Mathlib

/-!
Verification of the text-highlighting and entity-grouping core of the
NER crime-news app (src/app.py) against its natural-language specification.

The Python code is shallowly embedded: Python strings become `List Char`
(slicing with its index clamping/wrapping becomes `pyIdx`/`pyTake`/`pyDrop`),
entity records become the `Entity` structure, dictionaries become
association lists, and Python's stable `sorted` becomes a stable insertion
sort (`sortBy`), which computes the same function as any stable sort by the
same key.  Confidence scores are modelled as rationals and the float format
`f"{x:.2f}"` as round-half-even decimal formatting of the rational value.
-/

/-- Entity record as produced by the HuggingFace `ner` pipeline with
`aggregation_strategy="simple"` and consumed by `highlight_entities` and the
grouping loop of src/app.py: fields `word`, `entity_group`, `start`, `end`
(named `«end»` since `end` is a Lean keyword) and `score`.  Offsets are
integers because the code performs no validation on them. -/
structure Entity where
  word : List Char
  entity_group : List Char
  start : Int
  «end» : Int
  score : ℚ
deriving DecidableEq

/-- Python slice-index normalisation for step-1 slices (`s[:i]`, `s[i:]`) on a
string of length `n`: a negative index is shifted by `n`, then the result is
clamped into `[0, n]`.  This is CPython's `slice.indices` for step 1. -/
def pyIdx (n : Nat) (i : Int) : Nat :=
  (max 0 (min (if i < 0 then (n : Int) + i else i) (n : Int))).toNat

/-- Python `s[:i]` on a string modelled as a character list. -/
def pyTake (s : List Char) (i : Int) : List Char :=
  s.take (pyIdx s.length i)

/-- Python `s[i:]` on a string modelled as a character list. -/
def pyDrop (s : List Char) (i : Int) : List Char :=
  s.drop (pyIdx s.length i)

/-- The `light_colors` dictionary of `get_entity_color` in src/app.py. -/
def light_colors : List (List Char × List Char) :=
  [("LOC".data, "#D5F5E3".data),
   ("NOR".data, "#D6EAF8".data),
   ("LAW".data, "#FDEDEC".data),
   ("DAT".data, "#FEF9E7".data),
   ("PER".data, "#E8F8F5".data),
   ("CRIMETYPE".data, "#FADBD8".data),
   ("EVIDENCE".data, "#EBDEF0".data)]

/-- The `dark_colors` dictionary of `get_entity_color` in src/app.py. -/
def dark_colors : List (List Char × List Char) :=
  [("LOC".data, "#2ECC71".data),
   ("NOR".data, "#3498DB".data),
   ("LAW".data, "#E74C3C".data),
   ("DAT".data, "#F1C40F".data),
   ("PER".data, "#1ABC9C".data),
   ("CRIMETYPE".data, "#E67E22".data),
   ("EVIDENCE".data, "#9B59B6".data)]

/-- Python `d.get(k, default)` on a dictionary modelled as an association
list (the two color dictionaries have pairwise distinct keys, so lookup
order is irrelevant). -/
def dictGet (d : List (List Char × List Char)) (k : List Char) (d0 : List Char) : List Char :=
  match d.find? (fun p => decide (p.1 = k)) with
  | some p => p.2
  | none => d0

/-- `get_entity_color` of src/app.py: theme-dependent background color for an
entity category, with a gray fallback for unknown categories
(`'#7F8C8D'` for Dark, `'#F2F3F4'` otherwise). -/
def get_entity_color (entity_type : List Char) (theme : List Char) : List Char :=
  if theme = "Dark".data then dictGet dark_colors entity_type "#7F8C8D".data
  else dictGet light_colors entity_type "#F2F3F4".data

/-- The `highlight_text_color` local of `highlight_entities` in src/app.py:
`"black" if theme == 'Light' else "white"`. -/
def highlight_text_color (theme : List Char) : List Char :=
  if theme = "Light".data then "black".data else "white".data

/-- One decimal digit as a character (used by the embedding of Python's
numeric formatting; the argument is always a value of `n % 10`). -/
def pyDigit (d : Nat) : Char :=
  if d = 0 then '0' else if d = 1 then '1' else if d = 2 then '2'
  else if d = 3 then '3' else if d = 4 then '4' else if d = 5 then '5'
  else if d = 6 then '6' else if d = 7 then '7' else if d = 8 then '8' else '9'

/-- Fuel-driven decimal digit expansion of a natural number (structural
recursion on the fuel so that concrete instances evaluate in the kernel). -/
def natDigitsAux : Nat → Nat → List Char
  | 0, _ => []
  | fuel + 1, n => if n = 0 then [] else natDigitsAux fuel (n / 10) ++ [pyDigit (n % 10)]

/-- Decimal digit string of a natural number. -/
def natDigits (n : Nat) : List Char :=
  if n = 0 then ['0'] else natDigitsAux (n + 1) n

/-- The absolute value of a rational scaled by 100 and rounded to the
nearest integer with ties to even (the rounding of Python's float
formatting). -/
def roundHalfEven100 (q : ℚ) : Nat :=
  let m : Nat := q.num.natAbs * 100
  let d : Nat := q.den
  let fl : Nat := m / d
  let r : Nat := m % d
  if 2 * r < d then fl
  else if d < 2 * r then fl + 1
  else if fl % 2 = 0 then fl else fl + 1

/-- Python's `f"{x:.2f}"` modelled on a rational score: round the value to the
nearest hundredth with ties to even, then print with exactly two decimals. -/
def format2f (q : ℚ) : List Char :=
  (if q < 0 then ['-'] else []) ++ natDigits (roundHalfEven100 q / 100) ++ ['.']
    ++ (if roundHalfEven100 q % 100 < 10 then ['0'] else []) ++ natDigits (roundHalfEven100 q % 100)

/-- The `replacement` fragment built for one entity inside the loop of
`highlight_entities` in src/app.py, with the f-string literals spliced
around the interpolated color, text color, category, formatted score, word
and trailing category badge. -/
def replacementFor (theme : List Char) (e : Entity) : List Char :=
  "<span style=\"background-color: ".data ++ get_entity_color e.entity_group theme
    ++ "; color: ".data ++ highlight_text_color theme
    ++ "; padding: 0.3em 0.5em; margin: 0 0.2em; line-height: 1; border-radius: 0.35em;\" title=\"".data
    ++ e.entity_group ++ " (Score: ".data ++ format2f e.score ++ ")\">".data
    ++ e.word
    ++ " <strong style=\"font-size: 0.8em; font-weight: bold;\">".data ++ e.entity_group
    ++ "</strong></span>".data

/-- One iteration of the loop of `highlight_entities`:
`highlighted_text = highlighted_text[:start] + replacement + highlighted_text[end:]`. -/
def spliceStep (theme : List Char) (acc : List Char) (e : Entity) : List Char :=
  pyTake acc e.start ++ replacementFor theme e ++ pyDrop acc e.«end»

/-- Stable insertion of `x` into `l`: `x` is placed before the first element
`y` with `le x y`, hence after every earlier element it ties with. -/
def insertBy {α : Type} (le : α → α → Bool) (x : α) : List α → List α
  | [] => [x]
  | y :: ys => if le x y then x :: y :: ys else y :: insertBy le x ys

/-- Stable insertion sort; extensionally equal to Python's stable `sorted`
for any total preorder `le` (a stable sort's output is uniquely determined:
elements in `le`-order, ties in original order). -/
def sortBy {α : Type} (le : α → α → Bool) : List α → List α
  | [] => []
  | x :: xs => insertBy le x (sortBy le xs)

/-- Sort key of `sorted(entities, key=lambda x: x['start'], reverse=True)`:
descending by `start`. -/
def startDescLe (a b : Entity) : Bool :=
  decide (b.start ≤ a.start)

/-- `sorted(entities, key=lambda x: x['start'], reverse=True)` of src/app.py. -/
def sortStartDesc (es : List Entity) : List Entity :=
  sortBy startDescLe es

/-- `highlight_entities` of src/app.py: return `text` unchanged when
`entities` is empty, otherwise splice a styled replacement fragment over
each entity span, processing entities by descending `start`. -/
def highlight_entities (text : List Char) (entities : List Entity) (theme : List Char) : List Char :=
  if entities = [] then text
  else (sortStartDesc entities).foldl (spliceStep theme) text

/-- State machine removing HTML tag markup from a flat string: characters
between `<` and the next `>` (the tags themselves included) are dropped,
everything else is kept.  The Boolean state records being inside a tag. -/
def stripTagsAux : Bool → List Char → List Char
  | _, [] => []
  | true, c :: rest => if c = '>' then stripTagsAux false rest else stripTagsAux true rest
  | false, c :: rest => if c = '<' then stripTagsAux true rest else c :: stripTagsAux false rest

/-- Remove all HTML tag markup from a string (start outside any tag). -/
def stripTags (s : List Char) : List Char :=
  stripTagsAux false s

/-- A string free of the tag delimiter characters `<` and `>`. -/
def TagFree (s : List Char) : Prop :=
  ∀ c ∈ s, c ≠ '<' ∧ c ≠ '>'

/-- Well-formed, non-overlapping, ascending entity spans starting no earlier
than `lo`: each span satisfies `lo ≤ start < end` and the next span begins at
or after the current `end` (the spec's invariant `0 <= start < end <= len`
together with non-overlap). -/
def ChainOK (lo : Int) : List Entity → Prop
  | [] => True
  | e :: rest => lo ≤ e.start ∧ e.start < e.«end» ∧ ChainOK e.«end» rest

/-- End offset of the last entity of the list (`d` when the list is empty). -/
def lastEnd (d : Int) : List Entity → Int
  | [] => d
  | e :: rest => lastEnd e.«end» rest

/-- Expected output of the splice pass on entities listed in ascending span
order: the text before the first span, then for each entity its replacement
fragment followed by the original text between its `end` and the next span's
`start` (`pos` is the absolute position already emitted). -/
def spliceFrom (theme : List Char) (text : List Char) (pos : Nat) : List Entity → List Char
  | [] => text.drop pos
  | e :: rest =>
      (text.take e.start.toNat).drop pos ++ replacementFor theme e
        ++ spliceFrom theme text e.«end».toNat rest

/-- The same interleaving with each replacement fragment reduced to its
tag-stripped visible content: the entity's `word`, a space, and the
`entity_group` badge text. -/
def plainSpliceFrom (text : List Char) (pos : Nat) : List Entity → List Char
  | [] => text.drop pos
  | e :: rest =>
      (text.take e.start.toNat).drop pos ++ e.word ++ ' ' :: e.entity_group
        ++ plainSpliceFrom text e.«end».toNat rest

/-- Modelled from the spec: the confidence-threshold Entity Filter.
src/app.py contains no threshold filter (its analysis flow passes the `ner`
pipeline output directly to `highlight_entities` and the grouping loop); the
filter belongs to repository iterations not included under src/.  Faithful
to the spec's contract: "Retains entities with `confidence >= threshold`,
preserving original relative order." -/
def filterEntities (entities : List Entity) (threshold : ℚ) : List Entity :=
  entities.filter (fun e => decide (threshold ≤ e.score))

/-- Code points of the characters Python's `str.isspace()` accepts and
`str.strip()` removes: the ASCII whitespace characters, the information
separators U+001C-U+001F, NEL, NO-BREAK SPACE, OGHAM SPACE MARK, the Unicode
space separators U+2000-U+200A, LINE and PARAGRAPH SEPARATOR, NARROW
NO-BREAK SPACE, MEDIUM MATHEMATICAL SPACE and IDEOGRAPHIC SPACE. -/
def pyWhitespace : List Nat :=
  [0x9, 0xA, 0xB, 0xC, 0xD, 0x1C, 0x1D, 0x1E, 0x1F, 0x20, 0x85, 0xA0, 0x1680,
   0x2000, 0x2001, 0x2002, 0x2003, 0x2004, 0x2005, 0x2006, 0x2007, 0x2008,
   0x2009, 0x200A, 0x2028, 0x2029, 0x202F, 0x205F, 0x3000]

/-- Whitespace test of Python's `str.strip()` (Unicode whitespace, not just
the ASCII set). -/
def isPySpace (c : Char) : Bool :=
  pyWhitespace.contains c.toNat

/-- Python `s.strip()`: drop leading and trailing whitespace. -/
def pyStrip (s : List Char) : List Char :=
  ((s.dropWhile isPySpace).reverse.dropWhile isPySpace).reverse

/-- The three outcomes of the result panel of src/app.py: the pipeline is
invoked, the empty-input validation warning is shown, or the idle
informational message is shown. -/
inductive AnalysisOutcome where
  | pipelineRun
  | emptyWarning
  | idleInfo
deriving DecidableEq

/-- The branch structure guarding the analysis in src/app.py:
`if model_loaded and analyze_button and text_input.strip():` runs the
pipeline, `elif analyze_button and not text_input.strip():` warns about
empty input, and otherwise the idle message is shown (Python string
truthiness is non-emptiness). -/
def analysisOutcome (model_loaded analyze_button : Bool) (text_input : List Char) : AnalysisOutcome :=
  if model_loaded && analyze_button && !(pyStrip text_input).isEmpty then
    AnalysisOutcome.pipelineRun
  else if analyze_button && (pyStrip text_input).isEmpty then
    AnalysisOutcome.emptyWarning
  else
    AnalysisOutcome.idleInfo

/-- One step of the grouping loop of src/app.py: insert `e` into the
insertion-ordered dictionary `entity_groups`, appending to the entry of its
`entity_group` when present and adding a fresh singleton entry otherwise. -/
def addToGroups (acc : List (List Char × List Entity)) (e : Entity) : List (List Char × List Entity) :=
  if acc.any (fun p => decide (p.1 = e.entity_group)) then
    acc.map (fun p => if p.1 = e.entity_group then (p.1, p.2 ++ [e]) else p)
  else
    acc ++ [(e.entity_group, [e])]

/-- The `entity_groups` dictionary built by the loop of src/app.py, modelled
as an insertion-ordered association list. -/
def entity_groups (entities : List Entity) : List (List Char × List Entity) :=
  entities.foldl addToGroups []

/-- Python string `<=` (lexicographic comparison of code points); used by
`sorted(entity_groups.items())`, whose tuple comparison is decided by the
first components since the dictionary keys are pairwise distinct. -/
def strLe : List Char → List Char → Bool
  | [], _ => true
  | _ :: _, [] => false
  | a :: as_, b :: bs => if a.toNat = b.toNat then strLe as_ bs else decide (a.toNat < b.toNat)

/-- The rendering order of the grouped-entity list of src/app.py: groups
iterated via `sorted(entity_groups.items())` (ascending category code) and
each group's entities via `sorted(group_entities, key=lambda x: x['score'],
reverse=True)` (descending score). -/
def renderGroups (entities : List Entity) : List (List Char × List Entity) :=
  (sortBy (fun a b => strLe a.1 b.1) (entity_groups entities)).map
    (fun p => (p.1, sortBy (fun x y => decide (y.score ≤ x.score)) p.2))

/-- Keys of the color tables: the seven known category codes. -/
def knownCategories : List (List Char) :=
  light_colors.map Prod.fst

lemma pyIdx_le (n : Nat) (i : Int) : pyIdx n i ≤ n := by
  unfold pyIdx; split <;> omega

lemma pyIdx_of_nonneg_of_le {n : Nat} {i : Int} (h0 : 0 ≤ i) (h : i ≤ (n : Int)) :
    pyIdx n i = i.toNat := by
  unfold pyIdx; split <;> omega

lemma pyIdx_of_ge {n : Nat} {i : Int} (h : (n : Int) ≤ i) : pyIdx n i = n := by
  unfold pyIdx; split <;> omega

lemma pyIdx_of_neg_of_le {n : Nat} {i : Int} (h : i < 0) (h2 : (n : Int) + i ≤ 0) :
    pyIdx n i = 0 := by
  unfold pyIdx; split <;> omega

lemma pyIdx_of_neg_of_lt {n : Nat} {i : Int} (h : i < 0) (h2 : 0 ≤ (n : Int) + i) :
    pyIdx n i = ((n : Int) + i).toNat := by
  unfold pyIdx; split <;> omega

lemma dictGet_of_not_mem_keys {d : List (List Char × List Char)} {k : List Char}
    (h : k ∉ d.map Prod.fst) (d0 : List Char) : dictGet d k d0 = d0 := by
  unfold dictGet
  have hnone : d.find? (fun p => decide (p.1 = k)) = none := by
    rw [List.find?_eq_none]
    intro p hp hpk
    exact h (List.mem_map.mpr ⟨p, hp, of_decide_eq_true hpk⟩)
  rw [hnone]

/-- C4: for every text and every theme, `highlight_entities` applied to an
empty entity sequence returns the input text unchanged. -/
theorem highlight_entities_nil (text theme : List Char) :
    highlight_entities text [] theme = text := rfl

/-- C5: `get_entity_color` is a total function on strings (hence
deterministic: equal `(category, theme)` arguments yield equal colors); the
seven known category codes map to pairwise distinct colors in each theme's
table; every unknown category code yields the theme's gray fallback
(`#7F8C8D` for Dark, `#F2F3F4` otherwise) rather than an error; and the
contrast text color of `highlight_entities` is black for the Light theme and
white for the Dark theme. -/
theorem get_entity_color_spec :
    (knownCategories.map (fun c => get_entity_color c "Light".data)).Nodup
    ∧ (knownCategories.map (fun c => get_entity_color c "Dark".data)).Nodup
    ∧ (∀ c, c ∉ knownCategories → get_entity_color c "Dark".data = "#7F8C8D".data)
    ∧ (∀ c, c ∉ knownCategories → ∀ t, t ≠ "Dark".data → get_entity_color c t = "#F2F3F4".data)
    ∧ highlight_text_color "Light".data = "black".data
    ∧ highlight_text_color "Dark".data = "white".data := by
  refine ⟨by decide, by decide, ?_, ?_, rfl, rfl⟩
  · intro c hc
    have hkeys : dark_colors.map Prod.fst = knownCategories := by decide
    unfold get_entity_color
    rw [if_pos rfl]
    exact dictGet_of_not_mem_keys (hkeys ▸ hc) _
  · intro c hc t ht
    unfold get_entity_color
    rw [if_neg ht]
    exact dictGet_of_not_mem_keys hc _

theorem get_entity_color_spec_witness :
    get_entity_color "XYZ".data "Dark".data = "#7F8C8D".data
    ∧ get_entity_color "XYZ".data "Solar".data = "#F2F3F4".data :=
  ⟨get_entity_color_spec.2.2.1 "XYZ".data (by decide),
   get_entity_color_spec.2.2.2.1 "XYZ".data (by decide) "Solar".data (by decide)⟩

/-- C10: for every theme string other than `"Dark"`, `get_entity_color`
selects from the Light color table, while the text color of
`highlight_entities` is white for every theme string other than `"Light"`;
hence any theme outside the pair pairs Light-theme backgrounds with white
text. -/
theorem theme_fallthrough_spec :
    (∀ c t, t ≠ "Dark".data → get_entity_color c t = dictGet light_colors c "#F2F3F4".data)
    ∧ (∀ t, t ≠ "Light".data → highlight_text_color t = "white".data)
    ∧ (∀ c t, t ≠ "Dark".data → t ≠ "Light".data →
        get_entity_color c t = dictGet light_colors c "#F2F3F4".data
        ∧ highlight_text_color t = "white".data) := by
  refine ⟨?_, ?_, ?_⟩
  · intro c t ht
    unfold get_entity_color
    rw [if_neg ht]
  · intro t ht
    unfold highlight_text_color
    rw [if_neg ht]
  · intro c t h1 h2
    constructor
    · unfold get_entity_color
      rw [if_neg h1]
    · unfold highlight_text_color
      rw [if_neg h2]

theorem theme_fallthrough_spec_witness :
    get_entity_color "LOC".data "Solarized".data = dictGet light_colors "LOC".data "#F2F3F4".data
    ∧ highlight_text_color "Solarized".data = "white".data :=
  theme_fallthrough_spec.2.2 "LOC".data "Solarized".data (by decide) (by decide)

/-- C7: whenever the stripped input text is empty and the analyze button is
pressed, the result panel shows the empty-input validation warning and the
pipeline branch is not taken; conversely the pipeline branch is taken only
when the stripped input is non-empty. -/
theorem analysis_guard_spec (model_loaded analyze_button : Bool) (text_input : List Char) :
    (pyStrip text_input = [] → analyze_button = true →
      analysisOutcome model_loaded analyze_button text_input = AnalysisOutcome.emptyWarning)
    ∧ (analysisOutcome model_loaded analyze_button text_input = AnalysisOutcome.pipelineRun →
        pyStrip text_input ≠ []) := by
  constructor
  · intro h hb
    simp [analysisOutcome, h, hb]
  · intro hrun hempty
    unfold analysisOutcome at hrun
    rw [hempty] at hrun
    cases model_loaded <;> cases analyze_button <;> simp_all

theorem analysis_guard_spec_witness :
    analysisOutcome true true (' ' :: '\t' :: '\u0085' :: '\u00A0' :: [])
      = AnalysisOutcome.emptyWarning :=
  (analysis_guard_spec true true (' ' :: '\t' :: '\u0085' :: '\u00A0' :: [])).1
    (by decide) rfl

/-- Concrete entity used in end-to-end witnesses (spec section 8 scenario). -/
def entAhmad : Entity := ⟨"Ahmad".data, "PER".data, 0, 5, 1⟩

/-- Second concrete entity used in end-to-end witnesses. -/
def entJakarta : Entity := ⟨"Jakarta".data, "LOC".data, 17, 24, 0⟩

/-- C1: for every entity sequence and every threshold in `[0,1]`, the Entity
Filter returns a subsequence of its input (original relative order
preserved) containing exactly the entities whose confidence is at least the
threshold (membership and multiplicity preserved for retained entities), and
empty input yields empty output. -/
theorem filterEntities_spec (es : List Entity) (t : ℚ) (_h0 : 0 ≤ t) (_h1 : t ≤ 1) :
    (filterEntities es t).Sublist es
    ∧ (∀ e, e ∈ filterEntities es t ↔ e ∈ es ∧ t ≤ e.score)
    ∧ (∀ e, t ≤ e.score → (filterEntities es t).count e = es.count e)
    ∧ (∀ e, ¬ t ≤ e.score → (filterEntities es t).count e = 0)
    ∧ filterEntities [] t = [] := by
  refine ⟨List.filter_sublist es, ?_, ?_, ?_, rfl⟩
  · intro e
    rw [filterEntities, List.mem_filter]
    simp
  · intro e he
    rw [filterEntities]
    exact List.count_filter (by simpa using he)
  · intro e he
    rw [List.count_eq_zero]
    intro hmem
    rw [filterEntities, List.mem_filter] at hmem
    exact he (by simpa using hmem.2)

theorem filterEntities_spec_witness :
    entAhmad ∈ filterEntities [entAhmad, entJakarta] 1
      ↔ entAhmad ∈ [entAhmad, entJakarta] ∧ (1 : ℚ) ≤ entAhmad.score :=
  (filterEntities_spec [entAhmad, entJakarta] 1 (by decide) (by decide)).2.1 entAhmad

/-- C9: `highlight_entities` is total for arbitrary integer `start`/`end`
offsets, out-of-range values included: the embedded Python slicing clamps
every index into `[0, length]` (negative indices wrap by the length first,
exactly CPython's rule), and the splice of an entity with arbitrary offsets
is always the well-defined string `text[:start] + replacement + text[end:]`
— no hypothesis on the offsets is needed. -/
theorem highlight_entities_total :
    (∀ (n : Nat) (i : Int), pyIdx n i ≤ n)
    ∧ (∀ (n : Nat) (i : Int), 0 ≤ i → i ≤ (n : Int) → pyIdx n i = i.toNat)
    ∧ (∀ (n : Nat) (i : Int), (n : Int) ≤ i → pyIdx n i = n)
    ∧ (∀ (n : Nat) (i : Int), i < 0 → (n : Int) + i ≤ 0 → pyIdx n i = 0)
    ∧ (∀ (n : Nat) (i : Int), i < 0 → 0 ≤ (n : Int) + i → pyIdx n i = ((n : Int) + i).toNat)
    ∧ (∀ (text theme : List Char) (e : Entity),
        highlight_entities text [e] theme
          = pyTake text e.start ++ replacementFor theme e ++ pyDrop text e.«end») :=
  ⟨pyIdx_le, fun _ _ => pyIdx_of_nonneg_of_le, fun _ _ => pyIdx_of_ge,
   fun _ _ => pyIdx_of_neg_of_le, fun _ _ => pyIdx_of_neg_of_lt,
   fun _ _ _ => rfl⟩

theorem highlight_entities_total_witness :
    pyIdx 2 5 = 2 ∧ pyIdx 2 (-5) = 0 ∧ pyIdx 2 (-1) = 1 :=
  ⟨highlight_entities_total.2.2.1 2 5 (by decide),
   highlight_entities_total.2.2.2.1 2 (-5) (by decide) (by decide),
   (highlight_entities_total.2.2.2.2.1 2 (-1) (by decide) (by decide)).trans (by decide)⟩

lemma insertBy_perm {α : Type} (le : α → α → Bool) (x : α) :
    ∀ l : List α, (insertBy le x l).Perm (x :: l)
  | [] => List.Perm.refl _
  | y :: ys => by
      unfold insertBy
      split
      · exact List.Perm.refl _
      · exact ((insertBy_perm le x ys).cons y).trans (List.Perm.swap x y ys)

lemma sortBy_perm {α : Type} (le : α → α → Bool) :
    ∀ l : List α, (sortBy le l).Perm l
  | [] => List.Perm.refl _
  | x :: xs => (insertBy_perm le x (sortBy le xs)).trans ((sortBy_perm le xs).cons x)

lemma mem_insertBy {α : Type} {le : α → α → Bool} {x a : α} {l : List α} :
    a ∈ insertBy le x l ↔ a = x ∨ a ∈ l := by
  rw [(insertBy_perm le x l).mem_iff]
  simp

lemma insertBy_pairwise {α : Type} {le : α → α → Bool}
    (htrans : ∀ a b c, le a b = true → le b c = true → le a c = true)
    (htot : ∀ a b, le a b || le b a) (x : α) :
    ∀ {l : List α}, l.Pairwise (fun a b => le a b = true) →
      (insertBy le x l).Pairwise (fun a b => le a b = true) := by
  intro l
  induction l with
  | nil => intro _; exact List.pairwise_singleton _ x
  | cons y ys ih =>
      intro h
      rw [List.pairwise_cons] at h
      unfold insertBy
      split
      · rename_i hxy
        rw [List.pairwise_cons]
        refine ⟨?_, List.pairwise_cons.mpr h⟩
        intro b hb
        rcases List.mem_cons.mp hb with hby | hbys
        · exact hby ▸ hxy
        · exact htrans x y b hxy (h.1 b hbys)
      · rename_i hxy
        have hyx : le y x = true := by
          have := htot x y
          rw [Bool.or_eq_true] at this
          rcases this with h1 | h1
          · exact absurd h1 hxy
          · exact h1
        rw [List.pairwise_cons]
        refine ⟨?_, ih h.2⟩
        intro b hb
        rcases mem_insertBy.mp hb with hbx | hbys
        · exact hbx ▸ hyx
        · exact h.1 b hbys

lemma sortBy_pairwise {α : Type} {le : α → α → Bool}
    (htrans : ∀ a b c, le a b = true → le b c = true → le a c = true)
    (htot : ∀ a b, le a b || le b a) :
    ∀ l : List α, (sortBy le l).Pairwise (fun a b => le a b = true)
  | [] => List.Pairwise.nil
  | x :: xs => insertBy_pairwise htrans htot x (sortBy_pairwise htrans htot xs)

lemma chainOK_mono : ∀ {asc : List Entity} {lo lo' : Int},
    ChainOK lo asc → lo' ≤ lo → ChainOK lo' asc
  | [], _, _, _, _ => trivial
  | _ :: _, _, _, h, hle => ⟨le_trans hle h.1, h.2.1, h.2.2⟩

lemma chainOK_le_start {asc : List Entity} {lo : Int} (h : ChainOK lo asc) :
    ∀ x ∈ asc, lo ≤ x.start := by
  induction asc generalizing lo with
  | nil => intro x hx; cases hx
  | cons e rest ih =>
      intro x hx
      rcases List.mem_cons.mp hx with hxe | hxr
      · exact hxe ▸ h.1
      · exact le_trans (le_of_lt (lt_of_le_of_lt h.1 h.2.1)) (ih h.2.2 x hxr)

lemma chainOK_pairwise_lt {asc : List Entity} {lo : Int} (h : ChainOK lo asc) :
    asc.Pairwise (fun a b => a.start < b.start) := by
  induction asc generalizing lo with
  | nil => exact List.Pairwise.nil
  | cons e rest ih =>
      rw [List.pairwise_cons]
      refine ⟨?_, ih h.2.2⟩
      intro b hb
      exact lt_of_lt_of_le h.2.1 (chainOK_le_start h.2.2 b hb)

lemma lastEnd_mono : ∀ {asc : List Entity} {d d' : Int},
    d ≤ d' → lastEnd d asc ≤ lastEnd d' asc
  | [], _, _, h => h
  | _ :: _, _, _, _ => le_refl _

lemma chainOK_lo_le_lastEnd : ∀ {asc : List Entity} {lo : Int},
    ChainOK lo asc → lo ≤ lastEnd lo asc
  | [], _, _ => le_refl _
  | _ :: _, _, h =>
      le_trans (le_trans h.1 (le_of_lt h.2.1)) (chainOK_lo_le_lastEnd h.2.2)

/-- On a list whose starts are pairwise distinct, the stable descending sort
of `highlight_entities` coincides with reversing the ascending order: any two
permutations both strictly sorted by descending start are equal. -/
lemma sortStartDesc_eq_reverse {es asc : List Entity}
    (hperm : es.Perm asc)
    (hasc : asc.Pairwise (fun a b => a.start < b.start)) :
    sortStartDesc es = asc.reverse := by
  haveI : IsAntisymm Entity (fun a b => b.start < a.start) :=
    ⟨fun a b h1 h2 => absurd (lt_trans h1 h2) (lt_irrefl _)⟩
  have hsorted : (sortStartDesc es).Pairwise (fun a b => startDescLe a b = true) :=
    sortBy_pairwise
      (fun a b c h1 h2 => by
        rw [startDescLe, decide_eq_true_iff] at *
        exact le_trans h2 h1)
      (fun a b => by
        rw [startDescLe, startDescLe]
        rcases le_total b.start a.start with h | h
        · simp [h]
        · simp [h])
      es
  have hperm2 : (sortStartDesc es).Perm asc := (sortBy_perm startDescLe es).trans hperm
  have hne : (sortStartDesc es).Pairwise (fun a b => a.start ≠ b.start) := by
    have hsym : ∀ {x y : Entity}, x.start ≠ y.start → y.start ≠ x.start :=
      fun h => fun heq => h heq.symm
    exact (List.Perm.pairwise_iff hsym hperm2).mpr (hasc.imp (fun h => ne_of_lt h))
  have hstrict : (sortStartDesc es).Pairwise (fun a b => b.start < a.start) :=
    (hsorted.and hne).imp (fun {a b} h => by
      have h1 : b.start ≤ a.start := by
        have h2 := h.1
        rw [startDescLe, decide_eq_true_iff] at h2
        exact h2
      exact lt_of_le_of_ne h1 (fun heq => h.2 heq.symm))
  have hrev : (asc.reverse).Pairwise (fun a b => b.start < a.start) :=
    List.pairwise_reverse.mpr hasc
  exact List.eq_of_perm_of_sorted (hperm2.trans (List.reverse_perm asc).symm) hstrict hrev

lemma take_spliceFrom_zero (theme text : List Char) :
    ∀ (rest : List Entity) (k : Nat),
      ChainOK (k : Int) rest → lastEnd (k : Int) rest ≤ (text.length : Int) →
      (spliceFrom theme text 0 rest).take k = text.take k := by
  intro rest k hchain hlast
  cases rest with
  | nil => simp [spliceFrom]
  | cons e rest' =>
      have h1 : (k : Int) ≤ e.start := hchain.1
      have h2 : e.start < e.«end» := hchain.2.1
      have hlast' : lastEnd e.«end» rest' ≤ (text.length : Int) := hlast
      have h3 : e.«end» ≤ (text.length : Int) :=
        le_trans (chainOK_lo_le_lastEnd hchain.2.2) hlast'
      have hk : k ≤ e.start.toNat := by omega
      have hs : e.start.toNat ≤ text.length := by omega
      rw [spliceFrom, List.drop_zero, List.append_assoc, List.take_append_eq_append_take]
      have hlen : (text.take e.start.toNat).length = e.start.toNat := by
        rw [List.length_take]; omega
      rw [hlen, show k - e.start.toNat = 0 from by omega, List.take_zero, List.append_nil,
        List.take_take]
      congr 1
      omega

lemma drop_spliceFrom_zero (theme text : List Char) :
    ∀ (rest : List Entity) (k : Nat),
      ChainOK (k : Int) rest → lastEnd (k : Int) rest ≤ (text.length : Int) →
      (spliceFrom theme text 0 rest).drop k = spliceFrom theme text k rest := by
  intro rest k hchain hlast
  cases rest with
  | nil => simp [spliceFrom]
  | cons e rest' =>
      have h1 : (k : Int) ≤ e.start := hchain.1
      have h2 : e.start < e.«end» := hchain.2.1
      have hlast' : lastEnd e.«end» rest' ≤ (text.length : Int) := hlast
      have h3 : e.«end» ≤ (text.length : Int) :=
        le_trans (chainOK_lo_le_lastEnd hchain.2.2) hlast'
      have hk : k ≤ e.start.toNat := by omega
      have hs : e.start.toNat ≤ text.length := by omega
      rw [spliceFrom, List.drop_zero, List.append_assoc, List.drop_append_eq_append_drop]
      have hlen : (text.take e.start.toNat).length = e.start.toNat := by
        rw [List.length_take]; omega
      rw [hlen, show k - e.start.toNat = 0 from by omega, List.drop_zero, spliceFrom,
        List.append_assoc]

lemma le_length_spliceFrom_zero (theme text : List Char) (rest : List Entity) (k : Nat)
    (hchain : ChainOK (k : Int) rest) (hlast : lastEnd (k : Int) rest ≤ (text.length : Int)) :
    k ≤ (spliceFrom theme text 0 rest).length := by
  have hk : k ≤ text.length := by
    have := le_trans (chainOK_lo_le_lastEnd hchain) hlast
    omega
  have h := congrArg List.length (take_spliceFrom_zero theme text rest k hchain hlast)
  rw [List.length_take, List.length_take] at h
  omega

/-- Core of the splice pass: folding `spliceStep` over entities in
descending start order (that is, over the reverse of the ascending list)
produces the ascending interleaving of original text segments and
replacement fragments.  Splicing the rightmost span first keeps every
earlier offset valid. -/
lemma foldl_splice_eq_spliceFrom (theme text : List Char) :
    ∀ (asc : List Entity), ChainOK 0 asc → lastEnd 0 asc ≤ (text.length : Int) →
      asc.reverse.foldl (spliceStep theme) text = spliceFrom theme text 0 asc := by
  intro asc
  induction asc with
  | nil => intro _ _; simp [spliceFrom]
  | cons a rest ih =>
      intro hchain hlast
      have hchain' : ChainOK a.«end» rest := hchain.2.2
      have h0a : (0 : Int) ≤ a.start := hchain.1
      have hae : a.start < a.«end» := hchain.2.1
      have hlast' : lastEnd a.«end» rest ≤ (text.length : Int) := hlast
      have hcast_s : ((a.start.toNat : Nat) : Int) = a.start := by omega
      have hcast_e : ((a.«end».toNat : Nat) : Int) = a.«end» := by omega
      have hchain_s : ChainOK ((a.start.toNat : Nat) : Int) rest :=
        chainOK_mono hchain' (by omega)
      have hchain_e : ChainOK ((a.«end».toNat : Nat) : Int) rest :=
        chainOK_mono hchain' (by omega)
      have hlast_s : lastEnd ((a.start.toNat : Nat) : Int) rest ≤ (text.length : Int) := by
        cases rest with
        | nil =>
            have : a.«end» ≤ (text.length : Int) := hlast'
            simp only [lastEnd]
            omega
        | cons b rest'' => exact hlast'
      have hlast_e : lastEnd ((a.«end».toNat : Nat) : Int) rest ≤ (text.length : Int) := by
        cases rest with
        | nil =>
            have : a.«end» ≤ (text.length : Int) := hlast'
            simp only [lastEnd]
            omega
        | cons b rest'' => exact hlast'
      have ihres := ih (chainOK_mono hchain' (by omega))
        (le_trans (lastEnd_mono (by omega)) hlast')
      rw [List.reverse_cons, List.foldl_append, ihres]
      show spliceStep theme (spliceFrom theme text 0 rest) a = _
      have hXs : a.start.toNat ≤ (spliceFrom theme text 0 rest).length :=
        le_length_spliceFrom_zero theme text rest a.start.toNat hchain_s hlast_s
      have hXe : a.«end».toNat ≤ (spliceFrom theme text 0 rest).length :=
        le_length_spliceFrom_zero theme text rest a.«end».toNat hchain_e hlast_e
      have h1 : pyTake (spliceFrom theme text 0 rest) a.start = text.take a.start.toNat := by
        rw [pyTake, pyIdx_of_nonneg_of_le h0a (by omega)]
        exact take_spliceFrom_zero theme text rest a.start.toNat hchain_s hlast_s
      have h2 : pyDrop (spliceFrom theme text 0 rest) a.«end»
          = spliceFrom theme text a.«end».toNat rest := by
        rw [pyDrop, pyIdx_of_nonneg_of_le (by omega) (by omega)]
        exact drop_spliceFrom_zero theme text rest a.«end».toNat hchain_e hlast_e
      rw [spliceStep, h1, h2]
      simp only [spliceFrom, List.drop_zero]

/-- The splice pass of `highlight_entities` on any input sequence that is a
permutation of a well-formed ascending entity list. -/
lemma highlight_eq_spliceFrom (text theme : List Char) {es asc : List Entity}
    (hperm : es.Perm asc) (hchain : ChainOK 0 asc)
    (hlast : lastEnd 0 asc ≤ (text.length : Int)) :
    highlight_entities text es theme = spliceFrom theme text 0 asc := by
  cases hes : es with
  | nil =>
      have hasc : asc = [] := by
        subst hes
        exact (List.perm_nil.mp hperm.symm)
      subst hasc
      simp [highlight_entities, spliceFrom]
  | cons x xs =>
      subst hes
      rw [highlight_entities, if_neg (by simp)]
      rw [sortStartDesc_eq_reverse hperm (chainOK_pairwise_lt hchain)]
      exact foldl_splice_eq_spliceFrom theme text asc hchain hlast

lemma tagFree_append {u v : List Char} (hu : TagFree u) (hv : TagFree v) : TagFree (u ++ v) := by
  intro c hc
  rcases List.mem_append.mp hc with h | h
  · exact hu c h
  · exact hv c h

instance tagFree_decidable (s : List Char) : Decidable (TagFree s) :=
  List.decidableBAll _ s

instance chainOK_decidable : (lo : Int) → (l : List Entity) → Decidable (ChainOK lo l)
  | _, [] => isTrue trivial
  | lo, e :: rest =>
      have : Decidable (ChainOK e.«end» rest) := chainOK_decidable _ _
      decidable_of_iff (lo ≤ e.start ∧ e.start < e.«end» ∧ ChainOK e.«end» rest) Iff.rfl

lemma stripTagsAux_false_lt (w : List Char) :
    stripTagsAux false ('<' :: w) = stripTagsAux true w := by
  simp [stripTagsAux]

lemma stripTagsAux_true_gt (w : List Char) :
    stripTagsAux true ('>' :: w) = stripTagsAux false w := by
  simp [stripTagsAux]

lemma stripTagsAux_false_cons {c : Char} (h1 : c ≠ '<') (w : List Char) :
    stripTagsAux false (c :: w) = c :: stripTagsAux false w := by
  simp [stripTagsAux, h1]

lemma stripTagsAux_false_append : ∀ (u v : List Char), TagFree u →
    stripTagsAux false (u ++ v) = u ++ stripTagsAux false v
  | [], _, _ => rfl
  | c :: cs, v, hu => by
      have hc := hu c (by simp)
      have ih := stripTagsAux_false_append cs v (fun d hd => hu d (by simp [hd]))
      rw [List.cons_append, stripTagsAux_false_cons hc.1, ih, List.cons_append]

lemma stripTagsAux_true_append : ∀ (u w : List Char), (∀ c ∈ u, c ≠ '>') →
    stripTagsAux true (u ++ w) = stripTagsAux true w
  | [], _, _ => rfl
  | c :: cs, w, hu => by
      have hc := hu c (by simp)
      have ih := stripTagsAux_true_append cs w (fun d hd => hu d (by simp [hd]))
      rw [List.cons_append]
      show stripTagsAux true (c :: (cs ++ w)) = _
      rw [show stripTagsAux true (c :: (cs ++ w))
            = if c = '>' then stripTagsAux false (cs ++ w) else stripTagsAux true (cs ++ w)
          from rfl, if_neg hc, ih]

lemma stripTags_of_tagFree {u : List Char} (hu : TagFree u) : stripTags u = u := by
  have h := stripTagsAux_false_append u [] hu
  rw [List.append_nil] at h
  rw [stripTags, h, show stripTagsAux false [] = ([] : List Char) from rfl, List.append_nil]

lemma tagFree_dictGet {d : List (List Char × List Char)} {k d0 : List Char}
    (hvals : ∀ p ∈ d, TagFree p.2) (hd0 : TagFree d0) : TagFree (dictGet d k d0) := by
  unfold dictGet
  cases hf : d.find? (fun p => decide (p.1 = k)) with
  | none => exact hd0
  | some p => exact hvals p (List.mem_of_find?_eq_some hf)

lemma tagFree_get_entity_color (k t : List Char) : TagFree (get_entity_color k t) := by
  unfold get_entity_color
  split
  · exact tagFree_dictGet (by decide) (by decide)
  · exact tagFree_dictGet (by decide) (by decide)

lemma tagFree_highlight_text_color (t : List Char) : TagFree (highlight_text_color t) := by
  unfold highlight_text_color
  split
  · decide
  · decide

lemma tagFree_pyDigit (d : Nat) : pyDigit d ≠ '<' ∧ pyDigit d ≠ '>' := by
  unfold pyDigit
  repeat' split
  all_goals decide

lemma tagFree_natDigitsAux : ∀ (fuel n : Nat), TagFree (natDigitsAux fuel n)
  | 0, _ => by intro c hc; cases hc
  | fuel + 1, n => by
      unfold natDigitsAux
      split
      · intro c hc; cases hc
      · intro c hc
        rcases List.mem_append.mp hc with h | h
        · exact tagFree_natDigitsAux fuel (n / 10) c h
        · rw [List.mem_singleton.mp h]
          exact tagFree_pyDigit _

lemma tagFree_natDigits (n : Nat) : TagFree (natDigits n) := by
  unfold natDigits
  split
  · decide
  · exact tagFree_natDigitsAux _ _

lemma tagFree_format2f (q : ℚ) : TagFree (format2f q) := by
  intro c hc
  simp only [format2f] at hc
  generalize roundHalfEven100 q = n at hc
  rcases List.mem_append.mp hc with hc | h5
  · rcases List.mem_append.mp hc with hc | h4
    · rcases List.mem_append.mp hc with hc | h3
      · rcases List.mem_append.mp hc with h1 | h2
        · revert h1
          split
          · intro h1; simp only [List.mem_singleton] at h1; subst h1; decide
          · intro h1; cases h1
        · exact tagFree_natDigits _ c h2
      · simp only [List.mem_singleton] at h3; subst h3; decide
    · revert h4
      split
      · intro h4; simp only [List.mem_singleton] at h4; subst h4; decide
      · intro h4; cases h4
  · exact tagFree_natDigits _ c h5

/-- Stripping the tags of one replacement fragment (with any continuation
appended) leaves exactly the visible content: the entity's `word`, one
space, and the `entity_group` badge text. -/
lemma strip_replacement_append (theme : List Char) (e : Entity) (v : List Char)
    (hw : TagFree e.word) (hg : TagFree e.entity_group) :
    stripTagsAux false (replacementFor theme e ++ v)
      = e.word ++ (' ' :: (e.entity_group ++ stripTagsAux false v)) := by
  have hcolor : ∀ c ∈ get_entity_color e.entity_group theme, c ≠ '>' :=
    fun c hcm => (tagFree_get_entity_color e.entity_group theme c hcm).2
  have htc : ∀ c ∈ highlight_text_color theme, c ≠ '>' :=
    fun c hcm => (tagFree_highlight_text_color theme c hcm).2
  have hfmt : ∀ c ∈ format2f e.score, c ≠ '>' :=
    fun c hcm => (tagFree_format2f e.score c hcm).2
  have hggt : ∀ c ∈ e.entity_group, c ≠ '>' := fun c hcm => (hg c hcm).2
  have s1 : ∀ x : List Char,
      ("<span style=\"background-color: ".data) ++ x
        = '<' :: (("span style=\"background-color: ".data) ++ x) := fun _ => rfl
  have s2 : ∀ x : List Char,
      (")\">".data) ++ x = [')', '\"'] ++ ('>' :: x) := fun _ => rfl
  have s3 : ∀ x : List Char,
      (" <strong style=\"font-size: 0.8em; font-weight: bold;\">".data) ++ x
        = ' ' :: '<' :: (("strong style=\"font-size: 0.8em; font-weight: bold;\"".data)
            ++ ('>' :: x)) := fun _ => rfl
  have s4 : ∀ x : List Char,
      ("</strong></span>".data) ++ x
        = '<' :: (("/strong".data) ++ ('>' :: ('<' :: (("/span".data) ++ ('>' :: x))))) :=
    fun _ => rfl
  simp only [replacementFor, List.append_assoc]
  rw [s1, stripTagsAux_false_lt,
    stripTagsAux_true_append ("span style=\"background-color: ".data) _ (by decide),
    stripTagsAux_true_append (get_entity_color e.entity_group theme) _ hcolor,
    stripTagsAux_true_append ("; color: ".data) _ (by decide),
    stripTagsAux_true_append (highlight_text_color theme) _ htc,
    stripTagsAux_true_append
      ("; padding: 0.3em 0.5em; margin: 0 0.2em; line-height: 1; border-radius: 0.35em;\" title=\"".data)
      _ (by decide),
    stripTagsAux_true_append e.entity_group _ hggt,
    stripTagsAux_true_append (" (Score: ".data) _ (by decide),
    stripTagsAux_true_append (format2f e.score) _ hfmt,
    s2, stripTagsAux_true_append ([')', '\"']) _ (by decide), stripTagsAux_true_gt,
    stripTagsAux_false_append e.word _ hw,
    s3, stripTagsAux_false_cons (show (' ' : Char) ≠ '<' from by decide),
    stripTagsAux_false_lt,
    stripTagsAux_true_append ("strong style=\"font-size: 0.8em; font-weight: bold;\"".data)
      _ (by decide),
    stripTagsAux_true_gt,
    stripTagsAux_false_append e.entity_group _ hg,
    s4, stripTagsAux_false_lt,
    stripTagsAux_true_append ("/strong".data) _ (by decide), stripTagsAux_true_gt,
    stripTagsAux_false_lt,
    stripTagsAux_true_append ("/span".data) _ (by decide), stripTagsAux_true_gt]

lemma stripTags_spliceFrom (theme text : List Char) :
    ∀ (asc : List Entity) (pos : Nat), TagFree text →
      (∀ e ∈ asc, TagFree e.word ∧ TagFree e.entity_group) →
      stripTagsAux false (spliceFrom theme text pos asc) = plainSpliceFrom text pos asc
  | [], pos, htext, _ => by
      have hdrop : TagFree (text.drop pos) := fun c hc => htext c (List.mem_of_mem_drop hc)
      have h := stripTagsAux_false_append (text.drop pos) [] hdrop
      rw [List.append_nil] at h
      rw [spliceFrom, plainSpliceFrom, h,
        show stripTagsAux false [] = ([] : List Char) from rfl, List.append_nil]
  | e :: rest, pos, htext, hents => by
      have hw := (hents e (by simp)).1
      have hg := (hents e (by simp)).2
      have hseg : TagFree ((text.take e.start.toNat).drop pos) :=
        fun c hc => htext c (List.mem_of_mem_take (List.mem_of_mem_drop hc))
      have ih := stripTags_spliceFrom theme text rest e.«end».toNat htext
        (fun x hx => hents x (by simp [hx]))
      simp only [spliceFrom, plainSpliceFrom, List.append_assoc]
      rw [stripTagsAux_false_append _ _ hseg, strip_replacement_append theme e _ hw hg, ih]
      simp [List.append_assoc]

lemma startDescLe_trans : ∀ a b c : Entity,
    startDescLe a b = true → startDescLe b c = true → startDescLe a c = true := by
  intro a b c h1 h2
  rw [startDescLe, decide_eq_true_iff] at *
  exact le_trans h2 h1

lemma startDescLe_total : ∀ a b : Entity, startDescLe a b || startDescLe b a := by
  intro a b
  rw [startDescLe, startDescLe]
  rcases le_total b.start a.start with h | h
  · simp [h]
  · simp [h]

/-- C2 (counterexample to the claim as stated): a single non-overlapping,
in-bounds entity whose `word` even equals the covered substring does not
round-trip: after removing the tag markup, the inserted space and the
visible category badge text remain in the output. -/
theorem highlight_strip_counterexample :
    stripTags (highlight_entities ("ab".data)
        [⟨"a".data, "PER".data, 0, 1, 1⟩] ("Light".data))
      ≠ "ab".data := by decide

/-- C2 (amended): for every tag-free text and every entity sequence that is
a permutation of a non-overlapping, in-bounds ascending list with tag-free
`word` and `entity_group` fields, the output of `highlight_entities` with
all tag markup removed equals the original text with each span
`text[start:end]` replaced by the entity's `word`, a space, and its category
code — the original text itself is not reconstructed in general. -/
theorem highlight_strip_roundtrip (text theme : List Char) (es asc : List Entity)
    (hperm : es.Perm asc) (hchain : ChainOK 0 asc)
    (hlast : lastEnd 0 asc ≤ (text.length : Int))
    (htext : TagFree text)
    (hents : ∀ e ∈ asc, TagFree e.word ∧ TagFree e.entity_group) :
    stripTags (highlight_entities text es theme) = plainSpliceFrom text 0 asc := by
  rw [highlight_eq_spliceFrom text theme hperm hchain hlast]
  exact stripTags_spliceFrom theme text asc 0 htext hents

theorem highlight_strip_roundtrip_witness :
    stripTags (highlight_entities ("Ahmad ok".data)
        [⟨"Ahmad".data, "PER".data, 0, 5, 1⟩] ("Dark".data))
      = plainSpliceFrom ("Ahmad ok".data) 0 [⟨"Ahmad".data, "PER".data, 0, 5, 1⟩] :=
  highlight_strip_roundtrip ("Ahmad ok".data) ("Dark".data) _ _
    (List.Perm.refl _) (by decide) (by decide) (by decide) (by decide)

/-- Entity used by the C3 witness. -/
def entW3 : Entity := ⟨"b".data, "LOC".data, 1, 2, 1⟩

/-- C3: for every non-empty entity list, `highlight_entities` folds the
splice step over the entities sorted by `start` descending (the sorted list
is a permutation of the input, non-increasing in `start`); each step splices
`text[0:start]`, a replacement fragment, and `text[end:]`; and the fragment
wraps the span with the Colorizer background color, the contrast text
color, a tooltip with the category and the confidence formatted to two
decimal places, and a trailing badge showing the category code. -/
theorem highlight_algorithm (text theme : List Char) (es : List Entity) (hne : es ≠ []) :
    highlight_entities text es theme = (sortStartDesc es).foldl (spliceStep theme) text
    ∧ (sortStartDesc es).Perm es
    ∧ (sortStartDesc es).Pairwise (fun a b => b.start ≤ a.start)
    ∧ (∀ acc e, spliceStep theme acc e
        = pyTake acc e.start ++ replacementFor theme e ++ pyDrop acc e.«end»)
    ∧ (∀ e, replacementFor theme e
        = "<span style=\"background-color: ".data ++ get_entity_color e.entity_group theme
          ++ "; color: ".data ++ highlight_text_color theme
          ++ "; padding: 0.3em 0.5em; margin: 0 0.2em; line-height: 1; border-radius: 0.35em;\" title=\"".data
          ++ e.entity_group ++ " (Score: ".data ++ format2f e.score ++ ")\">".data
          ++ e.word
          ++ " <strong style=\"font-size: 0.8em; font-weight: bold;\">".data ++ e.entity_group
          ++ "</strong></span>".data) := by
  refine ⟨?_, sortBy_perm startDescLe es, ?_, fun _ _ => rfl, fun _ => rfl⟩
  · rw [highlight_entities, if_neg hne]
  · exact (sortBy_pairwise startDescLe_trans startDescLe_total es).imp
      (fun {a b} hab => of_decide_eq_true hab)

theorem highlight_algorithm_witness :
    highlight_entities ("ab".data) [entW3] ("Light".data)
      = (sortStartDesc [entW3]).foldl (spliceStep ("Light".data)) ("ab".data) :=
  (highlight_algorithm ("ab".data) ("Light".data) [entW3] (by decide)).1

/-- C8 (counterexample to the claim as stated): since the badge text is part
of the visible span content, an entity whose `word` differs from
`text[start:end]` can still produce a tag-stripped output equal to the
original text — here `word = "a"` differs from the covered `"a b"`, yet the
stripped output is exactly the original text. -/
theorem highlight_word_counterexample :
    (⟨"a".data, "b".data, 0, 3, 1⟩ : Entity).word ≠ (("a b".data.take 3).drop 0)
    ∧ stripTags (highlight_entities ("a b".data)
        [⟨"a".data, "b".data, 0, 3, 1⟩] ("Light".data))
      = "a b".data := by decide

/-- C8 (amended): the visible (tag-stripped) content of one highlight span
is the entity's `word` followed by a space and the `entity_group` badge
text, not `text[start:end]`; consequently, for a single in-bounds entity the
tag-stripped output equals the original text exactly when
`word + ' ' + entity_group` equals `text[start:end]` — a differing `word`
alone neither forces nor is forced by a difference. -/
theorem highlight_visible_word (text theme : List Char) (e : Entity)
    (h0 : 0 ≤ e.start) (hse : e.start < e.«end») (hend : e.«end» ≤ (text.length : Int))
    (htext : TagFree text) (hw : TagFree e.word) (hg : TagFree e.entity_group) :
    stripTags (replacementFor theme e) = e.word ++ (' ' :: e.entity_group)
    ∧ (stripTags (highlight_entities text [e] theme) = text
        ↔ e.word ++ (' ' :: e.entity_group) = (text.take e.«end».toNat).drop e.start.toNat) := by
  have hch : ChainOK 0 [e] := ⟨h0, hse, trivial⟩
  have hl : lastEnd 0 [e] ≤ (text.length : Int) := hend
  have h2 : stripTags (highlight_entities text [e] theme) = plainSpliceFrom text 0 [e] := by
    rw [highlight_eq_spliceFrom text theme (List.Perm.refl [e]) hch hl]
    exact stripTags_spliceFrom theme text [e] 0 htext
      (fun x hx => by
        rw [List.mem_singleton.mp hx]
        exact ⟨hw, hg⟩)
  have h2' : plainSpliceFrom text 0 [e]
      = text.take e.start.toNat ++ ((e.word ++ (' ' :: e.entity_group))
          ++ text.drop e.«end».toNat) := by
    simp [plainSpliceFrom, List.append_assoc]
  constructor
  · have h := strip_replacement_append theme e [] hw hg
    rw [List.append_nil] at h
    rw [stripTags, h, show stripTagsAux false [] = ([] : List Char) from rfl, List.append_nil]
  · have hmin : e.start.toNat ≤ e.«end».toNat := by omega
    have hsplit : text
        = text.take e.start.toNat ++ (((text.take e.«end».toNat).drop e.start.toNat)
            ++ text.drop e.«end».toNat) := by
      conv_lhs => rw [← List.take_append_drop e.«end».toNat text]
      rw [← List.append_assoc]
      congr 1
      conv_lhs => rw [← List.take_append_drop e.start.toNat (text.take e.«end».toNat)]
      rw [List.take_take, min_eq_left hmin]
    rw [h2, h2']
    constructor
    · intro heq
      exact List.append_cancel_right (List.append_cancel_left (heq.trans hsplit))
    · intro heq
      rw [heq]
      exact hsplit.symm

theorem highlight_visible_word_witness :
    stripTags (highlight_entities ("xy".data)
        [⟨"x".data, "T".data, 0, 1, 1⟩] ("Dark".data)) = "xy".data
      ↔ ("x".data ++ (' ' :: "T".data) : List Char)
        = (("xy".data.take (1 : Int).toNat).drop (0 : Int).toNat) :=
  (highlight_visible_word ("xy".data) ("Dark".data) ⟨"x".data, "T".data, 0, 1, 1⟩
    (by decide) (by decide) (by decide) (by decide) (by decide) (by decide)).2

lemma strLe_total : ∀ a b : List Char, (strLe a b || strLe b a) = true
  | [], b => by cases b <;> simp [strLe]
  | _ :: _, [] => by simp [strLe]
  | a :: as_, b :: bs => by
      simp only [strLe]
      by_cases h : a.toNat = b.toNat
      · rw [if_pos h, if_pos h.symm]
        exact strLe_total as_ bs
      · rw [if_neg h, if_neg (fun hh => h hh.symm)]
        simp only [Bool.or_eq_true, decide_eq_true_iff]
        omega

lemma strLe_trans : ∀ a b c : List Char,
    strLe a b = true → strLe b c = true → strLe a c = true
  | [], _, _, _, _ => rfl
  | _ :: _, [], _, h1, _ => by simp [strLe] at h1
  | _ :: _, _ :: _, [], _, h2 => by simp [strLe] at h2
  | a :: as_, b :: bs, c :: cs, h1, h2 => by
      simp only [strLe] at h1 h2 ⊢
      by_cases hab : a.toNat = b.toNat <;> by_cases hbc : b.toNat = c.toNat
      · rw [if_pos hab] at h1
        rw [if_pos hbc] at h2
        rw [if_pos (hab.trans hbc)]
        exact strLe_trans as_ bs cs h1 h2
      · rw [if_pos hab] at h1
        rw [if_neg hbc, decide_eq_true_iff] at h2
        rw [if_neg (by omega : ¬ a.toNat = c.toNat), decide_eq_true_iff]
        omega
      · rw [if_neg hab, decide_eq_true_iff] at h1
        rw [if_pos hbc] at h2
        rw [if_neg (by omega : ¬ a.toNat = c.toNat), decide_eq_true_iff]
        omega
      · rw [if_neg hab, decide_eq_true_iff] at h1
        rw [if_neg hbc, decide_eq_true_iff] at h2
        rw [if_neg (by omega : ¬ a.toNat = c.toNat), decide_eq_true_iff]
        omega

lemma map_fst_update (acc : List (List Char × List Entity)) (e : Entity) :
    (acc.map (fun p => if p.1 = e.entity_group then (p.1, p.2 ++ [e]) else p)).map Prod.fst
      = acc.map Prod.fst := by
  rw [List.map_map]
  apply List.map_congr_left
  intro p _
  by_cases h : p.1 = e.entity_group <;> simp [h]

lemma nodup_fst_addToGroups {acc : List (List Char × List Entity)} (e : Entity)
    (h : (acc.map Prod.fst).Nodup) : ((addToGroups acc e).map Prod.fst).Nodup := by
  unfold addToGroups
  split
  · rw [map_fst_update]
    exact h
  · rename_i hany
    rw [List.map_append, List.nodup_append]
    refine ⟨h, by simp, ?_⟩
    intro a ha hb
    simp only [List.map_cons, List.map_nil, List.mem_singleton] at hb
    subst hb
    rcases List.mem_map.mp ha with ⟨p, hp, hpa⟩
    exact hany (List.any_eq_true.mpr ⟨p, hp, decide_eq_true hpa⟩)

lemma homog_addToGroups {acc : List (List Char × List Entity)} {e : Entity}
    (h : ∀ p ∈ acc, ∀ x ∈ p.2, x.entity_group = p.1) :
    ∀ p ∈ addToGroups acc e, ∀ x ∈ p.2, x.entity_group = p.1 := by
  unfold addToGroups
  split
  · intro p hp x hx
    rcases List.mem_map.mp hp with ⟨q, hq, hqp⟩
    by_cases hqe : q.1 = e.entity_group
    · rw [if_pos hqe] at hqp
      subst hqp
      rcases List.mem_append.mp hx with hx1 | hx2
      · exact h q hq x hx1
      · rw [List.mem_singleton] at hx2
        subst hx2
        exact hqe.symm
    · rw [if_neg hqe] at hqp
      subst hqp
      exact h q hq x hx
  · intro p hp x hx
    rcases List.mem_append.mp hp with hp1 | hp2
    · exact h p hp1 x hx
    · rw [List.mem_singleton] at hp2
      subst hp2
      rw [List.mem_singleton] at hx
      subst hx
      rfl

lemma flatten_update : ∀ (acc : List (List Char × List Entity)) (g : List Char) (x : Entity),
    acc.any (fun p => decide (p.1 = g)) = true → (acc.map Prod.fst).Nodup →
    ((acc.map (fun p => if p.1 = g then (p.1, p.2 ++ [x]) else p)).map Prod.snd).flatten.Perm
      ((acc.map Prod.snd).flatten ++ [x])
  | [], g, x, hany, _ => by simp at hany
  | p :: acc', g, x, hany, hnd => by
      rw [List.map_cons, List.nodup_cons] at hnd
      by_cases hpg : p.1 = g
      · have htail : ∀ q ∈ acc', ¬ q.1 = g := by
          intro q hq hqg
          exact hnd.1 (hpg ▸ hqg ▸ List.mem_map_of_mem Prod.fst hq)
        have hmapid : acc'.map (fun p => if p.1 = g then (p.1, p.2 ++ [x]) else p) = acc' := by
          have h1 : acc'.map (fun p => if p.1 = g then (p.1, p.2 ++ [x]) else p)
              = acc'.map id :=
            List.map_congr_left (fun q hq => by rw [if_neg (htail q hq)]; rfl)
          rw [h1, List.map_id]
        rw [List.map_cons, if_pos hpg, hmapid]
        simp only [List.map_cons, List.flatten_cons]
        rw [List.append_assoc, List.append_assoc]
        exact List.Perm.append_left p.2 List.perm_append_comm
      · have hany' : acc'.any (fun p => decide (p.1 = g)) = true := by
          rw [List.any_cons] at hany
          simpa [hpg] using hany
        have ih := flatten_update acc' g x hany' hnd.2
        rw [List.map_cons, if_neg hpg]
        simp only [List.map_cons, List.flatten_cons]
        rw [List.append_assoc]
        exact List.Perm.append_left p.2 ih

lemma flatten_addToGroups {acc : List (List Char × List Entity)} (e : Entity)
    (hnd : (acc.map Prod.fst).Nodup) :
    ((addToGroups acc e).map Prod.snd).flatten.Perm ((acc.map Prod.snd).flatten ++ [e]) := by
  unfold addToGroups
  split
  · rename_i hany
    exact flatten_update acc e.entity_group e hany hnd
  · simp

lemma entity_groups_fold_inv : ∀ (es : List Entity) (acc : List (List Char × List Entity)),
    (∀ p ∈ acc, ∀ x ∈ p.2, x.entity_group = p.1) → (acc.map Prod.fst).Nodup →
    (∀ p ∈ es.foldl addToGroups acc, ∀ x ∈ p.2, x.entity_group = p.1)
    ∧ ((es.foldl addToGroups acc).map Prod.fst).Nodup
    ∧ ((es.foldl addToGroups acc).map Prod.snd).flatten.Perm ((acc.map Prod.snd).flatten ++ es)
  | [], acc, hh, hn => ⟨hh, hn, by simp⟩
  | e :: es', acc, hh, hn => by
      have step := entity_groups_fold_inv es' (addToGroups acc e)
        (homog_addToGroups hh) (nodup_fst_addToGroups e hn)
      refine ⟨step.1, step.2.1, ?_⟩
      rw [List.foldl_cons]
      refine step.2.2.trans ?_
      refine ((flatten_addToGroups e hn).append_right es').trans ?_
      rw [List.append_assoc]
      exact List.Perm.refl _

lemma flatten_map_sortScore (l : List (List Char × List Entity)) :
    ((l.map (fun p => sortBy (fun x y => decide (y.score ≤ x.score)) p.2)).flatten).Perm
      ((l.map Prod.snd).flatten) := by
  induction l with
  | nil => exact List.Perm.refl _
  | cons q l' ih =>
      simp only [List.map_cons, List.flatten_cons]
      exact (sortBy_perm _ q.2).append ih

/-- C6: for every entity sequence, the rendered grouping partitions the
entities exhaustively and disjointly by category (each rendered group is
homogeneous in its category, the concatenation of all groups is a
permutation of the input, and the group keys are pairwise distinct), each
group's entities are rendered in non-increasing confidence order, and the
groups are rendered in ascending category-code order. -/
theorem entity_grouping_spec (es : List Entity) :
    (∀ p ∈ renderGroups es, ∀ x ∈ p.2, x.entity_group = p.1)
    ∧ ((renderGroups es).map Prod.snd).flatten.Perm es
    ∧ (∀ p ∈ renderGroups es, p.2.Pairwise (fun x y => y.score ≤ x.score))
    ∧ ((renderGroups es).map Prod.fst).Pairwise (fun a b => strLe a b = true)
    ∧ ((renderGroups es).map Prod.fst).Nodup := by
  have inv := entity_groups_fold_inv es [] (by intro p hp; cases hp) (by simp)
  have hG : entity_groups es = es.foldl addToGroups [] := rfl
  have hsortperm := sortBy_perm (fun a b : List Char × List Entity => strLe a.1 b.1)
    (entity_groups es)
  have hmapfst : (renderGroups es).map Prod.fst
      = (sortBy (fun a b : List Char × List Entity => strLe a.1 b.1)
          (entity_groups es)).map Prod.fst := by
    rw [renderGroups, List.map_map]
    rfl
  refine ⟨?_, ?_, ?_, ?_, ?_⟩
  · intro p hp x hx
    rcases List.mem_map.mp hp with ⟨q, hq, hqp⟩
    subst hqp
    have hq' : q ∈ entity_groups es := hsortperm.mem_iff.mp hq
    have hx' : x ∈ q.2 := (sortBy_perm _ q.2).mem_iff.mp hx
    exact inv.1 q (hG ▸ hq') x hx'
  · rw [renderGroups, List.map_map]
    refine (flatten_map_sortScore _).trans ?_
    refine (List.Perm.flatten (hsortperm.map Prod.snd)).trans ?_
    have h := inv.2.2
    simpa using h
  · intro p hp
    rcases List.mem_map.mp hp with ⟨q, hq, hqp⟩
    subst hqp
    have hpw := @sortBy_pairwise Entity
      (fun x y : Entity => decide (y.score ≤ x.score))
      (fun a b c h1 h2 => by
        rw [decide_eq_true_iff] at *
        exact le_trans h2 h1)
      (fun a b => by
        simp only [Bool.or_eq_true, decide_eq_true_iff]
        exact le_total b.score a.score)
      q.2
    exact hpw.imp (fun {a b} hab => of_decide_eq_true hab)
  · rw [hmapfst]
    have hpw := @sortBy_pairwise (List Char × List Entity)
      (fun a b : List Char × List Entity => strLe a.1 b.1)
      (fun a b c h1 h2 => strLe_trans a.1 b.1 c.1 h1 h2)
      (fun a b => strLe_total a.1 b.1)
      (entity_groups es)
    exact List.pairwise_map.mpr hpw
  · rw [hmapfst]
    exact ((hsortperm.map Prod.fst).nodup_iff).mpr (hG ▸ inv.2.1)

theorem entity_grouping_spec_witness :
    entJakarta.entity_group = ("LOC".data) :=
  (entity_grouping_spec [entAhmad, entJakarta]).1 (("LOC".data, [entJakarta]))
    (by decide) entJakarta (by decide)
